import Mathlib

/-!
# Verification of the lumpy retrieval (RAG) subsystem

Shallow embedding of the retrieval subsystem of the `lumpy` browser extension:

* `ragMath.ts` — `toNormalizedF32`, `cosineDot` (JS `number`s modeled as `ℝ`);
* `ragDb.ts` — the IndexedDB-backed document/chunk store.  The two object
  stores are modeled as unordered lists with key-upsert writes; every read
  that the code performs iterates in key order (`getAll`, index cursors), so
  reads sort by key at access time, which matches IndexedDB iteration order
  for any internal representation;
* the background service worker (`RAG_INDEX_DOCUMENT`, `RAG_SEARCH`,
  `RAG_DELETE_DOCUMENT` message handlers);
* the options page chunker `chunkPages` and the upload flow that derives
  document ids from a content hash and chunk ids as `{docId}:{i}`.

JS strings holding document text are modeled as `List Char` (JS `trim` /
`slice` / `length` become `trimChars` / `drop` / `List.length`); identifiers
and names stay `String`.  The external embedding provider is a parameter
`embed : List (List Char) → Except String (List (List ℝ))`: a deterministic
function that either yields one vector per input or fails, exactly the
observable interface of `openRouterEmbeddings` (HTTP/shape failures throw).
Timestamps (`Date.now()`) are passed in as a `now` parameter.
-/

set_option linter.unusedVariables false

set_option maxRecDepth 8192

/-! ## JS string primitives -/

/-- JS whitespace test used by `String.prototype.trim` (the characters that
actually occur in this code base are ASCII whitespace). -/
def isJsWs (c : Char) : Bool := c.isWhitespace

/-- `String.prototype.trim`: strip whitespace from both ends. -/
def trimChars (l : List Char) : List Char :=
  ((l.reverse.dropWhile isJsWs).reverse).dropWhile isJsWs

/-- `s.slice(-n)` / "the last `n` characters of `s`". -/
def lastChars (n : ℕ) (l : List Char) : List Char := l.drop (l.length - n)

/-! ## Chunker (`chunkPages` in the options page) -/

/-- One entry of the ordered page-text sequence produced by `extractPdfText`. -/
structure PageText where
  page : ℕ
  text : List Char
deriving DecidableEq

/-- Output of the chunker: a chunk with its inclusive page range. -/
structure ChunkOut where
  pageStart : ℕ
  pageEnd : ℕ
  text : List Char
deriving DecidableEq

instance : Inhabited ChunkOut := ⟨⟨1, 1, []⟩⟩

/-- The marked text appended for page `pg`:
`pg.text ? "\n\n[Page N]\n" + pg.text : "\n\n[Page N]"`. -/
def pageAddition (pg : PageText) : List Char :=
  if pg.text = [] then "\n\n[Page ".data ++ (Nat.repr pg.page).data ++ "]".data
  else "\n\n[Page ".data ++ (Nat.repr pg.page).data ++ "]\n".data ++ pg.text

/-- Loop state of `chunkPages`: the growing buffer `cur`, the page range it
spans, and the chunks flushed so far. -/
structure CState where
  cur : List Char
  pageStart : ℕ
  pageEnd : ℕ
  chunks : List ChunkOut
deriving DecidableEq

/-- The inner `push` closure: flush the buffer if its trimmed text is
nonempty. -/
def pushChunk (st : CState) : List ChunkOut :=
  let t := trimChars st.cur
  if t = [] then st.chunks else st.chunks ++ [⟨st.pageStart, st.pageEnd, t⟩]

/-- One iteration of the `for (const pg of pages)` loop of `chunkPages`. -/
def chunkStep (maxChars overlapChars : ℕ) (st : CState) (pg : PageText) : CState :=
  let addition := pageAddition pg
  let st1 :=
    if st.cur.length + addition.length > maxChars ∧ trimChars st.cur ≠ [] then
      { cur := st.cur.drop (st.cur.length - overlapChars), pageStart := pg.page,
        pageEnd := st.pageEnd, chunks := pushChunk st }
    else st
  { st1 with cur := st1.cur ++ addition, pageEnd := pg.page }

/-- `chunkPages(pages, {maxChars, overlapChars})`. -/
def chunkPages (pages : List PageText) (maxChars overlapChars : ℕ) : List ChunkOut :=
  let p0 := (pages.head?.map PageText.page).getD 1
  pushChunk (pages.foldl (chunkStep maxChars overlapChars) ⟨[], p0, p0, []⟩)

/-- `chunkPages(pages)` with the default configuration `{2500, 250}`. -/
def chunkPagesDefault (pages : List PageText) : List ChunkOut := chunkPages pages 2500 250

/-! ## VectorCodec (`ragMath.ts`) -/

/-- `toNormalizedF32`: divide every component by `Math.sqrt(sumSq) || 1`
(`|| 1` turns a zero norm into the divisor `1`).  Float32 arithmetic is
abstracted to exact real arithmetic. -/
noncomputable def toNormalizedF32 (vec : List ℝ) : List ℝ :=
  let sumSq := (vec.map (fun v => v * v)).sum
  let norm := Real.sqrt sumSq
  let d := if norm = 0 then 1 else norm
  vec.map (fun v => v / d)

/-- The Euclidean norm of a vector, for stating the spec's properties. -/
noncomputable def euclideanNorm (vec : List ℝ) : ℝ :=
  Real.sqrt ((vec.map (fun v => v * v)).sum)

/-- `cosineDot`: dot product over the first `min(a.length, b.length)`
components. -/
noncomputable def cosineDot (a b : List ℝ) : ℝ :=
  ((a.zip b).map (fun p => p.1 * p.2)).sum

/-! ## DocumentStore (`ragDb.ts`) -/

/-- `RagDocument` record. -/
structure RagDocument where
  id : String
  name : String
  createdAt : ℕ
  pageCount : ℕ
  byteSize : ℕ
  sha256 : Option String
  embeddingModel : String
  chunkCount : ℕ

/-- `RagChunk` record; `embeddingF32` is the stored normalized vector. -/
structure RagChunk where
  id : String
  docId : String
  createdAt : ℕ
  pageStart : ℕ
  pageEnd : ℕ
  text : List Char
  embeddingF32 : List ℝ

/-- The `browseAssistRag` database: the `documents` and `chunks` object
stores, keyed by `id`. -/
structure Store where
  documents : List RagDocument
  chunks : List RagChunk

def emptyStore : Store := ⟨[], []⟩

/-- IndexedDB `put` (upsert by key).  Because every read sorts by key, the
key-value store is represented up to reordering: an upsert removes the old
entry for the key and appends the new one. -/
def upsertBy {α : Type} (key : α → String) (l : List α) (x : α) : List α :=
  l.filter (fun y => key y != key x) ++ [x]

/-- `putDocument(doc)` — upsert by id. -/
def putDocument (s : Store) (doc : RagDocument) : Store :=
  { s with documents := upsertBy RagDocument.id s.documents doc }

/-- `putChunks(chunks)` — upsert many in one transaction. -/
def putChunks (s : Store) (cs : List RagChunk) : Store :=
  { s with chunks := cs.foldl (upsertBy RagChunk.id) s.chunks }

/-- `deleteDocument(docId)` — one readwrite transaction over both stores:
delete the document record and every chunk whose `docId` matches. -/
def deleteDocument (s : Store) (docId : String) : Store :=
  { documents := s.documents.filter (fun d => d.id != docId),
    chunks := s.chunks.filter (fun c => c.docId != docId) }

/-- Key order on document records (IndexedDB iterates keys ascending). -/
def docIdLe (a b : RagDocument) : Prop := a.id ≤ b.id

instance : DecidableRel docIdLe := fun a b => inferInstanceAs (Decidable (a.id ≤ b.id))

instance : IsTotal RagDocument docIdLe := ⟨fun a b => le_total a.id b.id⟩

instance : IsTrans RagDocument docIdLe := ⟨fun _ _ _ h1 h2 => le_trans h1 h2⟩

/-- Key order on chunk records. -/
def chunkIdLe (a b : RagChunk) : Prop := a.id ≤ b.id

instance : DecidableRel chunkIdLe := fun a b => inferInstanceAs (Decidable (a.id ≤ b.id))

instance : IsTotal RagChunk chunkIdLe := ⟨fun a b => le_total a.id b.id⟩

instance : IsTrans RagChunk chunkIdLe := ⟨fun _ _ _ h1 h2 => le_trans h1 h2⟩

/-- `listDocuments()` — `getAll` returns records in ascending key order. -/
def listDocuments (s : Store) : List RagDocument :=
  List.insertionSort docIdLe s.documents

/-- One step of the `byDocId` index cursor: all chunks of one document, in
ascending primary-key order. -/
def chunksByDocId (s : Store) (docId : String) : List RagChunk :=
  List.insertionSort chunkIdLe (s.chunks.filter (fun c => c.docId == docId))

/-- `getChunksForDocs(docIds)` — union of per-document cursor iterations, in
the order the ids are given (empty input yields an empty result). -/
def getChunksForDocs (s : Store) (docIds : List String) : List RagChunk :=
  docIds.flatMap (chunksByDocId s)

/-- A store write issued by a handler.  `RAG_INDEX_DOCUMENT` awaits
`putDocument` and then `putChunks` as two separate transactions, so the state
after each write is observable by concurrently running readers. -/
inductive StoreOp where
  | putDoc (doc : RagDocument)
  | putChs (cs : List RagChunk)
  | delDoc (docId : String)

def applyOp (s : Store) : StoreOp → Store
  | .putDoc d => putDocument s d
  | .putChs cs => putChunks s cs
  | .delDoc id => deleteDocument s id

def applyOps (s : Store) (ops : List StoreOp) : Store := ops.foldl applyOp s

/-- Every store state a reader can observe while a handler that issues `ops`
runs: the initial state and the state after each committed write. -/
def observableStates (s : Store) (ops : List StoreOp) : List Store :=
  List.scanl applyOp s ops

/-! ## RetrievalEngine (`RAG_SEARCH` handler) -/

def EMBEDDING_MODEL : String := "openai/text-embedding-3-small"

/-- A search hit as assembled by the handler. -/
structure RagSearchHit where
  docId : String
  docName : Option String
  chunkId : String
  score : ℝ
  pageStart : ℕ
  pageEnd : ℕ
  text : List Char

/-- The comparator `(a, b) => b.score - a.score` sorts by descending score;
`hitGe a b` holds when `a` may stay before `b`. -/
def hitGe (a b : RagSearchHit) : Prop := b.score ≤ a.score

noncomputable instance : DecidableRel hitGe :=
  fun a b => inferInstanceAs (Decidable (b.score ≤ a.score))

instance : IsTotal RagSearchHit hitGe := ⟨fun a b => le_total b.score a.score⟩

instance : IsTrans RagSearchHit hitGe := ⟨fun _ _ _ h1 h2 => le_trans h2 h1⟩

/-- `best.sort((a, b) => b.score - a.score)`.  `Array.prototype.sort` is
stable (ES2019) and a stable sort under a total preorder has a unique result,
so it is modeled by insertion sort, which is stable. -/
noncomputable def sortHits (l : List RagSearchHit) : List RagSearchHit :=
  List.insertionSort hitGe l

/-- `docNameById` — the `Map` from document id to display name. -/
def docNameById (docs : List RagDocument) (docId : String) : Option String :=
  (docs.find? (fun d => d.id == docId)).map RagDocument.name

/-- The hit built for chunk `c` against query vector `q`
(`new Float32Array(c.embeddingF32)` is the identity here). -/
noncomputable def toHit (names : String → Option String) (q : List ℝ) (c : RagChunk) :
    RagSearchHit :=
  { docId := c.docId, docName := names c.docId, chunkId := c.id,
    score := cosineDot q c.embeddingF32, pageStart := c.pageStart,
    pageEnd := c.pageEnd, text := c.text }

/-- One iteration of the top-K loop: push-and-sort while below capacity,
otherwise overwrite the last (minimum) slot only when the new score is
strictly greater, then re-sort. -/
noncomputable def bestInsert (topK : ℕ) (best : List RagSearchHit) (h : RagSearchHit) :
    List RagSearchHit :=
  if best.length < topK then sortHits (best ++ [h])
  else
    match best.getLast? with
    | none => best
    | some lastHit =>
      if lastHit.score < h.score then sortHits (best.dropLast ++ [h]) else best

/-- `Math.max(1, Math.min(20, Number(m.topK) || 6))`; `|| 6` replaces a zero
(or NaN) requested count by the default `6` before clamping. -/
def clampTopK (topK : ℤ) : ℤ := max 1 (min 20 (if topK = 0 then 6 else topK))

/-- `m.docIds && m.docIds.length ? m.docIds : allDocs.map(d => d.id)`. -/
def resolveDocIds (docIds : Option (List String)) (allDocs : List RagDocument) :
    List String :=
  match docIds with
  | some ids => if ids ≠ [] then ids else allDocs.map RagDocument.id
  | none => allDocs.map RagDocument.id

/-- The `RAG_SEARCH` handler. -/
noncomputable def ragSearch (embed : List (List Char) → Except String (List (List ℝ)))
    (apiKey : String) (query : List Char) (topK : ℤ) (docIds : Option (List String))
    (s : Store) : Except String (List RagSearchHit) :=
  if apiKey = "" then .error "Missing apiKey"
  else if trimChars query = [] then .error "Missing query"
  else
    let k := (clampTopK topK).toNat
    let allDocs := listDocuments s
    let docs := resolveDocIds docIds allDocs
    if docs = [] then .ok []
    else
      match embed [query] with
      | .error e => .error e
      | .ok [] => .error "TypeError: embeddings[0] is undefined"
      | .ok (queryEmb :: _) =>
        let q := toNormalizedF32 queryEmb
        let chunks := getChunksForDocs s docs
        .ok (chunks.foldl (fun best c => bestInsert k best (toHit (docNameById allDocs) q c)) [])

/-! ## IndexingPipeline (`RAG_INDEX_DOCUMENT` handler) -/

/-- The `doc` payload of a `RAG_INDEX_DOCUMENT` request. -/
structure RagDocIn where
  id : String
  name : String
  pageCount : ℕ
  byteSize : ℕ
  sha256 : Option String
deriving DecidableEq

/-- One entry of the `chunks` payload of a `RAG_INDEX_DOCUMENT` request. -/
structure RagChunkIn where
  id : String
  pageStart : ℕ
  pageEnd : ℕ
  text : List Char
deriving DecidableEq

/-- The chunk record assembled for one embedded chunk. -/
noncomputable def mkChunkRecord (docId : String) (now : ℕ) (c : RagChunkIn)
    (emb : List ℝ) : RagChunk :=
  { id := c.id, docId := docId, createdAt := now, pageStart := c.pageStart,
    pageEnd := c.pageEnd, text := c.text, embeddingF32 := toNormalizedF32 emb }

/-- The inner `for (let j ...)` loop over one batch: pair each chunk with
`embeddings[j]`.  A missing vector (`embeddings[j]` undefined) throws inside
`toNormalizedF32` and aborts the run. -/
noncomputable def assembleBatch (docId : String) (now : ℕ) :
    List RagChunkIn → List (List ℝ) → Except String (List RagChunk)
  | [], _ => .ok []
  | _ :: _, [] => .error "TypeError: embeddings[j] is undefined"
  | c :: cs, e :: es =>
    (assembleBatch docId now cs es).map (fun recs => mkChunkRecord docId now c e :: recs)

/-- The embedding batch size. -/
def BATCH : ℕ := 32

/-- The `for (let i = 0; i < m.chunks.length; i += BATCH)` loop: embed each
batch of at most `BATCH` chunk texts and assemble the chunk records; the
first failing provider call aborts everything. -/
noncomputable def embedBatches (embed : List (List Char) → Except String (List (List ℝ)))
    (docId : String) (now : ℕ) : List RagChunkIn → Except String (List RagChunk)
  | [] => .ok []
  | c :: rest =>
    let batch := (c :: rest).take BATCH
    match embed (batch.map RagChunkIn.text) with
    | .error e => .error e
    | .ok embs =>
      match assembleBatch docId now batch embs with
      | .error e => .error e
      | .ok recs =>
        (embedBatches embed docId now ((c :: rest).drop BATCH)).map (fun more => recs ++ more)
  termination_by l => l.length
  decreasing_by simp [BATCH]; omega

/-- The partition of the request's chunk list into the batches the handler
embeds, for stating the failure policy. -/
def chunkBatches : List RagChunkIn → List (List RagChunkIn)
  | [] => []
  | c :: rest => (c :: rest).take BATCH :: chunkBatches ((c :: rest).drop BATCH)
  termination_by l => l.length
  decreasing_by simp [BATCH]; omega

/-- The document record written at the end of a successful run. -/
def mkDocRecord (m : RagDocIn) (now : ℕ) (chunkCount : ℕ) : RagDocument :=
  { id := m.id, name := m.name, createdAt := now, pageCount := m.pageCount,
    byteSize := m.byteSize, sha256 := m.sha256, embeddingModel := EMBEDDING_MODEL,
    chunkCount := chunkCount }

/-- The `RAG_INDEX_DOCUMENT` handler: validation, batched embedding, then —
only once every batch has succeeded — `await putDocument(docRecord)` followed
by `await putChunks(chunkRecords)`.  It returns the response and the sequence
of store writes it issued (empty on any failure). -/
noncomputable def ragIndexDocument (embed : List (List Char) → Except String (List (List ℝ)))
    (now : ℕ) (apiKey : String) (doc : RagDocIn) (chunks : List RagChunkIn) :
    Except String (String × ℕ) × List StoreOp :=
  if apiKey = "" then (.error "Missing apiKey", [])
  else if doc.id = "" ∨ doc.name = "" then (.error "Missing doc", [])
  else if chunks = [] then (.error "No chunks", [])
  else
    match embedBatches embed doc.id now chunks with
    | .error e => (.error e, [])
    | .ok recs =>
      (.ok (doc.id, recs.length),
        [.putDoc (mkDocRecord doc now recs.length), .putChs recs])

/-! ## Upload flow (`onUploadPdf` in the options page) -/

/-- The chunk payload built by `onUploadPdf`: chunk `i` gets id
`{docId}:{i}`. -/
def uploadChunkIns (docId : String) (cs : List ChunkOut) : List RagChunkIn :=
  cs.mapIdx (fun i c =>
    { id := docId ++ ":" ++ Nat.repr i, pageStart := c.pageStart,
      pageEnd := c.pageEnd, text := c.text })

/-- The `RAG_INDEX_DOCUMENT` request built by `onUploadPdf` for one file:
the document id is the content hash (`sha256Hex(buf)`), so identical bytes
always map to the same id, and the chunks come from `chunkPages(pages)` with
the default configuration. -/
def uploadRequest (sha256Hex : List ℕ → String) (content : List ℕ) (name : String)
    (pages : List PageText) (byteSize : ℕ) : RagDocIn × List RagChunkIn :=
  let docId := sha256Hex content
  (⟨docId, name, pages.length, byteSize, some docId⟩,
    uploadChunkIns docId (chunkPagesDefault pages))

/-! ## Concrete inputs used by the claim theorems and witnesses -/

/-- A store with one document (`"a"`) and one chunk for it, for the C5
witness. -/
def c5Store : Store :=
  ⟨[⟨"a", "A.pdf", 0, 1, 10, none, EMBEDDING_MODEL, 1⟩],
    [⟨"a:0", "a", 0, 1, 1, ['t'], []⟩]⟩

/-- A provider that always fails, modeling missing/rejected credentials. -/
def embedFailing : List (List Char) → Except String (List (List ℝ)) :=
  fun _ => .error "Embeddings HTTP 401"

/-- Document/chunk request payloads for the C3 witness. -/
def c3doc : RagDocIn := ⟨"d3", "c3.pdf", 1, 9, none⟩

def c3chunk : RagChunkIn := ⟨"d3:0", 1, 1, ['t']⟩

/-- A provider returning the vector `[1]` for every input. -/
def embedOnes : List (List Char) → Except String (List (List ℝ)) :=
  fun ts => .ok (ts.map (fun _ => [1]))

def c4doc : RagDocIn := ⟨"d4", "c4.pdf", 1, 9, none⟩

def c4chunk : RagChunkIn := ⟨"d4:0", 1, 1, ['t']⟩

def c6doc : RagDocIn := ⟨"d6", "n.pdf", 1, 1, some "d6"⟩

def c6chunk : RagChunkIn := ⟨"d6:0", 1, 1, "[Page 1]\nhi".data⟩

noncomputable def c6rec1 : RagChunk := mkChunkRecord "d6" 0 c6chunk [1]

noncomputable def c6rec2 : RagChunk := mkChunkRecord "d6" 1 c6chunk [1]

/-- The two-page input for the C8 counterexample: raw text totals
`1250 + 1240 = 2490 ≤ 2500` characters, yet the marked additions total
`2512 > 2500`, so the chunker flushes and produces two chunks. -/
def c8pages : List PageText :=
  [⟨1, List.replicate 1250 'A'⟩, ⟨2, List.replicate 1240 'B'⟩]

/-- The spec's scenario input: pages `["short", "short", "X"*3000]`. -/
def c7pages : List PageText :=
  [⟨1, "short".data⟩, ⟨2, "short".data⟩, ⟨3, List.replicate 3000 'X'⟩]

/-- Stable insertion of a *later* candidate into a descending-sorted list: the
newcomer goes before the first strictly lower score, after all ties.  This is
what one loop iteration of the handler's push-or-replace-then-re-sort
amounts to. -/
noncomputable def insLast (h : RagSearchHit) : List RagSearchHit → List RagSearchHit
  | [] => [h]
  | b :: bs => if b.score < h.score then h :: b :: bs else b :: insLast h bs

/-- A provider returning the vector `[1]` for any input, for the C1 concrete
runs. -/
def c1embed : List (List Char) → Except String (List (List ℝ)) := fun _ => .ok [[1]]

def c1chunkB : RagChunk := ⟨"b:0", "b", 0, 1, 1, ['t'], [1]⟩

def c1chunkA : RagChunk := ⟨"a:0", "a", 0, 1, 1, ['t'], [1]⟩

/-- Two single-chunk documents whose chunks carry the same embedding `[1]`,
so both chunks tie on similarity against any query. -/
def c1Store : Store := ⟨[], [c1chunkB, c1chunkA]⟩

/-! ## Helper lemmas -/

theorem sumSq_nonneg (v : List ℝ) : 0 ≤ (v.map (fun x => x * x)).sum := by
  apply List.sum_nonneg
  intro x hx
  obtain ⟨y, _, rfl⟩ := List.mem_map.mp hx
  exact mul_self_nonneg y

theorem euclideanNorm_nonneg (v : List ℝ) : 0 ≤ euclideanNorm v :=
  Real.sqrt_nonneg _

theorem sumSq_map_div (l : List ℝ) (c : ℝ) :
    ((l.map (fun x => x / c)).map (fun x => x * x)).sum =
      (l.map (fun x => x * x)).sum / (c * c) := by
  induction l with
  | nil => simp
  | cons a t ih =>
    simp only [List.map_cons, List.sum_cons, ih]
    rw [div_mul_div_comm, ← add_div]

theorem euclideanNorm_eq_zero_iff (v : List ℝ) :
    euclideanNorm v = 0 ↔ (v.map (fun x => x * x)).sum = 0 := by
  unfold euclideanNorm
  constructor
  · intro h
    have h0 := sumSq_nonneg v
    have := Real.sqrt_eq_zero'.mp h
    linarith
  · intro h
    rw [h, Real.sqrt_zero]

/-- Folding key-upserts over a store list with pairwise-distinct incoming keys
removes every stale entry for an incoming key and appends the new entries. -/
theorem foldl_upsertBy_eq {α : Type} (key : α → String) (recs : List α) :
    ∀ l : List α, (recs.map key).Nodup →
      recs.foldl (upsertBy key) l =
        l.filter (fun y => (recs.map key).all (fun k2 => key y != k2)) ++ recs := by
  induction recs with
  | nil => intro l _; simp
  | cons r rs ih =>
    intro l hnd
    rw [List.map_cons, List.nodup_cons] at hnd
    obtain ⟨hr, hrs⟩ := hnd
    rw [List.foldl_cons, ih _ hrs]
    unfold upsertBy
    rw [List.filter_append, List.filter_filter]
    have hfr : List.filter (fun y => (List.map key rs).all (fun k2 => key y != k2)) [r] = [r] := by
      have hall : ((List.map key rs).all (fun k2 => key r != k2)) = true := by
        rw [List.all_eq_true]
        intro k2 hk2
        simp only [bne_iff_ne, ne_eq]
        intro hcontra
        exact hr (hcontra ▸ hk2)
      rw [List.filter_cons, if_pos hall, List.filter_nil]
    rw [hfr]
    have hcong : List.filter
        (fun y => (List.map key rs).all (fun k2 => key y != k2) && (key y != key r)) l =
        List.filter (fun y => (List.map key (r :: rs)).all (fun k2 => key y != k2)) l := by
      apply List.filter_congr
      intro y _
      simp only [List.map_cons, List.all_cons, Bool.and_comm]
    rw [hcong, List.append_assoc]
    rfl

/-! ## C9 — normalization -/

/-- **C9.** `toNormalizedF32` divides every component by the Euclidean norm,
except that a zero norm is replaced by the divisor `1`, so the zero vector
maps to the zero vector and the divisor is never zero (no divide-by-zero
fault); on a vector of nonzero norm the result has Euclidean norm `1`. -/
theorem toNormalizedF32_spec (v : List ℝ) (n : ℕ) (hv : euclideanNorm v ≠ 0) :
    (∀ w : List ℝ, (if euclideanNorm w = 0 then (1 : ℝ) else euclideanNorm w) ≠ 0) ∧
    toNormalizedF32 v = v.map (fun x => x / euclideanNorm v) ∧
    toNormalizedF32 (List.replicate n 0) = List.replicate n 0 ∧
    euclideanNorm (toNormalizedF32 v) = 1 := by
  refine ⟨?_, ?_, ?_, ?_⟩
  · intro w
    by_cases h : euclideanNorm w = 0
    · rw [if_pos h]; exact one_ne_zero
    · rw [if_neg h]; exact h
  · simp only [toNormalizedF32]
    rw [show Real.sqrt ((v.map (fun x => x * x)).sum) = euclideanNorm v from rfl,
      if_neg hv]
  · simp only [toNormalizedF32]
    simp [Real.sqrt_zero]
  · simp only [toNormalizedF32]
    rw [show Real.sqrt ((v.map (fun x => x * x)).sum) = euclideanNorm v from rfl,
      if_neg hv]
    show euclideanNorm (List.map (fun x => x / euclideanNorm v) v) = 1
    have hEsq : euclideanNorm v * euclideanNorm v = (v.map (fun x => x * x)).sum := by
      have h := Real.sq_sqrt (sumSq_nonneg v)
      unfold euclideanNorm
      nlinarith [h]
    have hS : (v.map (fun x => x * x)).sum ≠ 0 := by
      intro h0
      exact hv ((euclideanNorm_eq_zero_iff v).mpr h0)
    rw [show euclideanNorm (List.map (fun x => x / euclideanNorm v) v) =
        Real.sqrt (((List.map (fun x => x / euclideanNorm v) v).map (fun x => x * x)).sum)
        from rfl,
      sumSq_map_div, hEsq, div_self hS, Real.sqrt_one]

/-- Witness for C9 at the concrete vector `[3, 4]`. -/
theorem toNormalizedF32_spec_witness :
    euclideanNorm [(3 : ℝ), 4] ≠ 0 ∧
    toNormalizedF32 [(3 : ℝ), 4] =
      [3 / euclideanNorm [(3 : ℝ), 4], 4 / euclideanNorm [(3 : ℝ), 4]] := by
  have hv : euclideanNorm [(3 : ℝ), 4] ≠ 0 := by
    rw [ne_eq, euclideanNorm_eq_zero_iff]
    norm_num
  have h := (toNormalizedF32_spec [(3 : ℝ), 4] 2 hv).2.1
  rw [h]
  exact ⟨hv, by norm_num⟩

/-! ## C2 — the `topK` clamp -/

/-- **C2 (counterexample).** The claim says a requested count of `0` clamps
to `1`; the handler computes `Number(m.topK) || 6` first, so `0` falls back
to the default `6` before clamping. -/
theorem clampTopK_zero_cex : clampTopK 0 = 6 ∧ clampTopK 0 ≠ 1 := by decide

/-- **C2 (amended).** A nonzero requested count is clamped into `[1, 20]`
(in particular `999 ↦ 20`), but a requested count of `0` (JS-falsy) is first
replaced by the default `6`; the effective count always lies in `[1, 20]`. -/
theorem clampTopK_amended (k : ℤ) (hk : k ≠ 0) :
    clampTopK k = max 1 (min 20 k) ∧ clampTopK 0 = 6 ∧
    1 ≤ clampTopK k ∧ clampTopK k ≤ 20 := by
  unfold clampTopK
  rw [if_neg hk]
  refine ⟨rfl, by decide, ?_, ?_⟩ <;> omega

/-- Witness for C2 at the concrete requested count `999`. -/
theorem clampTopK_amended_witness : clampTopK 999 = 20 ∧ clampTopK 0 = 6 := by
  have h := clampTopK_amended 999 (by decide)
  refine ⟨?_, h.2.1⟩
  rw [h.1]
  decide

/-! ## C5 — cascading delete -/

/-- **C5.** For a document id present in the store, `deleteDocument` removes
the document record and every chunk referencing it in one transaction:
afterwards `getChunksForDocs([id])` is empty and `listDocuments()` no longer
contains the id.  (In `ragDb.ts` both deletions happen inside a single
readwrite transaction over both object stores, so no intermediate state is
observable; the model performs them as one state transition.) -/
theorem deleteDocument_cascade (s : Store) (docId : String)
    (hpresent : ∃ d ∈ s.documents, d.id = docId) :
    getChunksForDocs (deleteDocument s docId) [docId] = [] ∧
    ∀ d ∈ listDocuments (deleteDocument s docId), d.id ≠ docId := by
  constructor
  · unfold getChunksForDocs chunksByDocId deleteDocument
    have hnil : List.filter (fun c => c.docId == docId && c.docId != docId) s.chunks = [] := by
      rw [List.filter_eq_nil_iff]
      intro c hc
      simp
    simp [hnil]
  · intro d hd
    unfold listDocuments deleteDocument at hd
    have hmem := (List.perm_insertionSort docIdLe _).mem_iff.mp hd
    have := (List.mem_filter.mp hmem).2
    simpa [bne_iff_ne] using this

/-- Witness for C5 at a concrete one-document store. -/
theorem deleteDocument_cascade_witness :
    getChunksForDocs (deleteDocument c5Store "a") ["a"] = [] ∧
    ∀ d ∈ listDocuments (deleteDocument c5Store "a"), d.id ≠ "a" :=
  deleteDocument_cascade c5Store "a"
    ⟨⟨"a", "A.pdf", 0, 1, 10, none, EMBEDDING_MODEL, 1⟩, by simp [c5Store], rfl⟩

/-! ## C10 — empty `docIds` and empty candidate set -/

/-- **C10.** An explicitly provided but empty `docIds` array is JS-falsy via
`m.docIds.length`, so the handler treats it exactly like an absent
restriction; and when the resolved candidate set is empty (no documents
known) the handler returns a successful empty hit list before any provider
call, for every provider — in particular a failing one. -/
theorem ragSearch_empty_docids (embed : List (List Char) → Except String (List (List ℝ)))
    (apiKey : String) (query : List Char) (topK : ℤ) (s : Store)
    (h1 : apiKey ≠ "") (h2 : trimChars query ≠ []) (hnodocs : s.documents = []) :
    (∀ (embed2 : List (List Char) → Except String (List (List ℝ))) (apiKey2 : String)
        (query2 : List Char) (topK2 : ℤ) (s2 : Store),
      ragSearch embed2 apiKey2 query2 topK2 (some []) s2 =
        ragSearch embed2 apiKey2 query2 topK2 none s2) ∧
    ragSearch embed apiKey query topK none s = .ok [] := by
  constructor
  · intro embed2 apiKey2 query2 topK2 s2
    have hres : ∀ l, resolveDocIds (some []) l = resolveDocIds none l := by
      intro l
      simp [resolveDocIds]
    simp only [ragSearch, hres]
  · unfold ragSearch
    rw [if_neg h1, if_neg h2]
    have hdocs : resolveDocIds none (listDocuments s) = [] := by
      unfold resolveDocIds listDocuments
      rw [hnodocs]
      rfl
    simp only [hdocs]
    rfl

/-- Witness for C10: an empty store with a failing provider still answers an
empty-docIds search with a successful empty hit list. -/
theorem ragSearch_empty_docids_witness :
    ragSearch embedFailing "key" ['q'] 3 (some []) emptyStore = .ok [] := by
  have h := ragSearch_empty_docids embedFailing "key" ['q'] 3 emptyStore
    (by decide) (by decide) rfl
  rw [h.1 embedFailing "key" ['q'] 3 emptyStore]
  exact h.2

/-! ## Indexing-pipeline lemmas -/

theorem assembleBatch_ok (docId : String) (now : ℕ) :
    ∀ (cs : List RagChunkIn) (es : List (List ℝ)) (recs : List RagChunk),
      assembleBatch docId now cs es = .ok recs →
      recs.map RagChunk.id = cs.map RagChunkIn.id ∧ ∀ c ∈ recs, c.docId = docId := by
  intro cs
  induction cs with
  | nil =>
    intro es recs h
    cases es with
    | nil =>
      simp only [assembleBatch, Except.ok.injEq] at h
      subst h
      simp
    | cons e es' =>
      simp only [assembleBatch, Except.ok.injEq] at h
      subst h
      simp
  | cons c cs' ih =>
    intro es recs h
    cases es with
    | nil => simp [assembleBatch] at h
    | cons e es' =>
      simp only [assembleBatch] at h
      cases hrest : assembleBatch docId now cs' es' with
      | error err => rw [hrest] at h; simp [Except.map] at h
      | ok recs' =>
        rw [hrest] at h
        simp only [Except.map, Except.ok.injEq] at h
        obtain ⟨hids, hdoc⟩ := ih es' recs' hrest
        subst h
        constructor
        · simp [mkChunkRecord, hids]
        · intro x hx
          rcases List.mem_cons.mp hx with hx | hx
          · rw [hx]; rfl
          · exact hdoc x hx

theorem embedBatches_ok (embed : List (List Char) → Except String (List (List ℝ)))
    (docId : String) (now : ℕ) :
    ∀ (n : ℕ) (chunks : List RagChunkIn) (recs : List RagChunk), chunks.length ≤ n →
      embedBatches embed docId now chunks = .ok recs →
      recs.map RagChunk.id = chunks.map RagChunkIn.id ∧ ∀ c ∈ recs, c.docId = docId := by
  intro n
  induction n with
  | zero =>
    intro chunks recs hlen hok
    have hchunks : chunks = [] := List.length_eq_zero.mp (Nat.le_zero.mp hlen)
    subst hchunks
    simp only [embedBatches, Except.ok.injEq] at hok
    subst hok
    simp
  | succ n ih =>
    intro chunks recs hlen hok
    cases chunks with
    | nil =>
      simp only [embedBatches, Except.ok.injEq] at hok
      subst hok
      simp
    | cons c rest =>
      simp only [embedBatches] at hok
      split at hok
      · exact absurd hok (by simp)
      · rename_i embs hembed
        split at hok
        · exact absurd hok (by simp)
        · rename_i recsB hasm
          cases hrec : embedBatches embed docId now ((c :: rest).drop BATCH) with
          | error e => rw [hrec] at hok; simp [Except.map] at hok
          | ok more =>
            rw [hrec] at hok
            simp only [Except.map, Except.ok.injEq] at hok
            subst hok
            have hlen' : ((c :: rest).drop BATCH).length ≤ n := by
              rw [List.length_drop]
              simp only [List.length_cons] at hlen ⊢
              simp only [BATCH]
              omega
            obtain ⟨hids1, hdoc1⟩ := assembleBatch_ok docId now _ _ _ hasm
            obtain ⟨hids2, hdoc2⟩ := ih _ _ hlen' hrec
            constructor
            · rw [List.map_append, hids1, hids2, ← List.map_append,
                List.take_append_drop]
            · intro x hx
              rcases List.mem_append.mp hx with hx | hx
              · exact hdoc1 x hx
              · exact hdoc2 x hx

theorem chunkBatches_nil : chunkBatches [] = [] := by
  simp [chunkBatches]

theorem embedBatches_error_of_batch_failure
    (embed : List (List Char) → Except String (List (List ℝ))) (docId : String) (now : ℕ) :
    ∀ (n : ℕ) (chunks : List RagChunkIn), chunks.length ≤ n →
      (∃ b ∈ chunkBatches chunks, ∃ e, embed (b.map RagChunkIn.text) = .error e) →
      ∃ e, embedBatches embed docId now chunks = .error e := by
  intro n
  induction n with
  | zero =>
    intro chunks hlen hfail
    have hchunks : chunks = [] := List.length_eq_zero.mp (Nat.le_zero.mp hlen)
    subst hchunks
    rw [chunkBatches_nil] at hfail
    simp at hfail
  | succ n ih =>
    intro chunks hlen hfail
    cases chunks with
    | nil =>
      rw [chunkBatches_nil] at hfail
      simp at hfail
    | cons c rest =>
      simp only [embedBatches]
      split
      · rename_i e hembed
        exact ⟨e, rfl⟩
      · rename_i embs hembed
        split
        · rename_i e hasm
          exact ⟨e, rfl⟩
        · rename_i recsB hasm
          have hlen' : ((c :: rest).drop BATCH).length ≤ n := by
            rw [List.length_drop]
            simp only [List.length_cons] at hlen ⊢
            simp only [BATCH]
            omega
          have hfail' : ∃ b ∈ chunkBatches ((c :: rest).drop BATCH), ∃ e,
              embed (b.map RagChunkIn.text) = .error e := by
            obtain ⟨b, hb, e, he⟩ := hfail
            simp only [chunkBatches] at hb
            rcases List.mem_cons.mp hb with hb | hb
            · subst hb
              rw [he] at hembed
              exact absurd hembed (by simp)
            · exact ⟨b, hb, e, he⟩
          obtain ⟨e, he⟩ := ih _ hlen' hfail'
          rw [he]
          exact ⟨e, rfl⟩

/-! ## C3 — failed embedding batch aborts the run with nothing persisted -/

/-- **C3.** If any batch's provider call fails, the `RAG_INDEX_DOCUMENT`
handler returns an error having issued no store write: every state a reader
can observe equals the state before the run, and applying the run's writes
is the identity. -/
theorem ragIndex_abort_on_batch_failure
    (embed : List (List Char) → Except String (List (List ℝ))) (now : ℕ)
    (apiKey : String) (doc : RagDocIn) (chunks : List RagChunkIn) (s : Store)
    (hfail : ∃ b ∈ chunkBatches chunks, ∃ e, embed (b.map RagChunkIn.text) = .error e) :
    ∃ e, ragIndexDocument embed now apiKey doc chunks = (.error e, []) ∧
      observableStates s (ragIndexDocument embed now apiKey doc chunks).2 = [s] ∧
      applyOps s (ragIndexDocument embed now apiKey doc chunks).2 = s := by
  unfold ragIndexDocument
  by_cases hk : apiKey = ""
  · rw [if_pos hk]
    exact ⟨"Missing apiKey", rfl, rfl, rfl⟩
  · rw [if_neg hk]
    by_cases hdoc : doc.id = "" ∨ doc.name = ""
    · rw [if_pos hdoc]
      exact ⟨"Missing doc", rfl, rfl, rfl⟩
    · rw [if_neg hdoc]
      by_cases hch : chunks = []
      · rw [if_pos hch]
        exact ⟨"No chunks", rfl, rfl, rfl⟩
      · rw [if_neg hch]
        obtain ⟨e, he⟩ := embedBatches_error_of_batch_failure embed doc.id now
          chunks.length chunks le_rfl hfail
        rw [he]
        exact ⟨e, rfl, rfl, rfl⟩

/-- Witness for C3: a failing provider leaves a concrete store untouched. -/
theorem ragIndex_abort_witness :
    ∃ e, ragIndexDocument embedFailing 0 "key" c3doc [c3chunk] = (.error e, []) ∧
      observableStates c5Store (ragIndexDocument embedFailing 0 "key" c3doc [c3chunk]).2 =
        [c5Store] ∧
      applyOps c5Store (ragIndexDocument embedFailing 0 "key" c3doc [c3chunk]).2 = c5Store := by
  have hb : chunkBatches [c3chunk] = [[c3chunk]] := by
    simp only [chunkBatches]
    rw [List.take_of_length_le (by simp [BATCH]), List.drop_eq_nil_of_le (by simp [BATCH]),
      chunkBatches_nil]
  exact ragIndex_abort_on_batch_failure embedFailing 0 "key" c3doc [c3chunk] c5Store
    ⟨[c3chunk], by rw [hb]; exact List.mem_singleton.mpr rfl, "Embeddings HTTP 401", rfl⟩

/-! ## C4 — `chunkCount` vs. persisted chunks, and the two-write commit -/

/-- Evaluation helper: a one-chunk request embeds in a single batch. -/
theorem embedBatches_singleton (embed : List (List Char) → Except String (List (List ℝ)))
    (docId : String) (now : ℕ) (c : RagChunkIn) (e : List ℝ)
    (h : embed [c.text] = .ok [e]) :
    embedBatches embed docId now [c] = .ok [mkChunkRecord docId now c e] := by
  simp only [embedBatches]
  rw [List.take_of_length_le (by simp [BATCH]), List.drop_eq_nil_of_le (by simp [BATCH])]
  simp only [List.map_cons, List.map_nil]
  rw [h]
  simp only [assembleBatch, embedBatches, Except.map]
  rfl

/-- **C4 (counterexample).** The handler persists the document record and the
chunk set as two separate awaited transactions (`putDocument`, then
`putChunks`), not as a single logical commit: after the first write a reader
observes a store state in which the document is present with
`chunkCount = 1` while no chunk with its `docId` exists yet. -/
theorem ragIndex_intermediate_cex :
    ∃ st ∈ observableStates emptyStore
      (ragIndexDocument embedOnes 0 "key" c4doc [c4chunk]).2,
      ∃ d ∈ st.documents, d.chunkCount = 1 ∧
        (st.chunks.filter (fun c => c.docId == d.id)).length = 0 := by
  have hemb : embedBatches embedOnes c4doc.id 0 [c4chunk] =
      .ok [mkChunkRecord c4doc.id 0 c4chunk [1]] :=
    embedBatches_singleton embedOnes c4doc.id 0 c4chunk [1] rfl
  have hrun : ragIndexDocument embedOnes 0 "key" c4doc [c4chunk] =
      (.ok (c4doc.id, 1),
        [.putDoc (mkDocRecord c4doc 0 1), .putChs [mkChunkRecord c4doc.id 0 c4chunk [1]]]) := by
    unfold ragIndexDocument
    rw [if_neg (by decide), if_neg (by decide), if_neg (by decide), hemb]
    rfl
  rw [hrun]
  refine ⟨putDocument emptyStore (mkDocRecord c4doc 0 1), ?_, mkDocRecord c4doc 0 1, ?_, rfl, rfl⟩
  · exact List.mem_cons_of_mem _ (List.mem_cons_self _ _)
  · exact List.mem_singleton.mpr rfl

/-- **C4 (amended).** After an indexing run completes, the (unique) document
record with the run's id has `chunkCount` equal to the number of persisted
chunks with that `docId` — provided the request's chunk ids are pairwise
distinct and any pre-existing chunks of that document are superseded by the
run.  The run commits through two sequential writes (`putDoc`, then
`putChs`), not one; the invariant can fail in between (see the
counterexample). -/
theorem ragIndex_final_state (embed : List (List Char) → Except String (List (List ℝ)))
    (now : ℕ) (apiKey : String) (doc : RagDocIn) (chunks : List RagChunkIn)
    (s : Store) (recs : List RagChunk)
    (h1 : apiKey ≠ "") (h2 : ¬(doc.id = "" ∨ doc.name = "")) (h3 : chunks ≠ [])
    (hok : embedBatches embed doc.id now chunks = .ok recs)
    (hnd : (chunks.map RagChunkIn.id).Nodup)
    (hold : ∀ c ∈ s.chunks, c.docId = doc.id → c.id ∈ chunks.map RagChunkIn.id) :
    (ragIndexDocument embed now apiKey doc chunks).1 = .ok (doc.id, recs.length) ∧
    (ragIndexDocument embed now apiKey doc chunks).2 =
      [.putDoc (mkDocRecord doc now recs.length), .putChs recs] ∧
    ∀ d ∈ (applyOps s (ragIndexDocument embed now apiKey doc chunks).2).documents,
      d.id = doc.id →
      d.chunkCount =
        ((applyOps s (ragIndexDocument embed now apiKey doc chunks).2).chunks.filter
          (fun c => c.docId == doc.id)).length := by
  have hrun : ragIndexDocument embed now apiKey doc chunks =
      (.ok (doc.id, recs.length),
        [.putDoc (mkDocRecord doc now recs.length), .putChs recs]) := by
    unfold ragIndexDocument
    rw [if_neg h1, if_neg h2, if_neg h3, hok]
  refine ⟨by rw [hrun], by rw [hrun], ?_⟩
  rw [hrun]
  have happly : applyOps s
      [StoreOp.putDoc (mkDocRecord doc now recs.length), StoreOp.putChs recs] =
      putChunks (putDocument s (mkDocRecord doc now recs.length)) recs := rfl
  rw [happly]
  obtain ⟨hids, hdocid⟩ := embedBatches_ok embed doc.id now chunks.length chunks recs le_rfl hok
  have hndr : (recs.map RagChunk.id).Nodup := by rw [hids]; exact hnd
  have hchunks : (putChunks (putDocument s (mkDocRecord doc now recs.length)) recs).chunks =
      s.chunks.filter (fun y => (recs.map RagChunk.id).all (fun k2 => y.id != k2)) ++ recs :=
    foldl_upsertBy_eq RagChunk.id recs s.chunks hndr
  have hdocs : (putChunks (putDocument s (mkDocRecord doc now recs.length)) recs).documents =
      s.documents.filter (fun y => y.id != doc.id) ++ [mkDocRecord doc now recs.length] := rfl
  intro d hd hdid
  have hfilter1 : List.filter (fun c => c.docId == doc.id)
      (s.chunks.filter (fun y => (recs.map RagChunk.id).all (fun k2 => y.id != k2))) = [] := by
    rw [List.filter_eq_nil_iff]
    intro c hc
    obtain ⟨hcs, hall⟩ := List.mem_filter.mp hc
    simp only [beq_iff_eq]
    intro hcd
    have hid := hold c hcs hcd
    rw [← hids] at hid
    rw [List.all_eq_true] at hall
    have := hall c.id hid
    simp at this
  have hfilter2 : List.filter (fun c => c.docId == doc.id) recs = recs := by
    rw [List.filter_eq_self]
    intro c hc
    simp [hdocid c hc]
  rw [hchunks, List.filter_append, hfilter1, hfilter2, List.nil_append]
  rw [hdocs] at hd
  rcases List.mem_append.mp hd with hmem | hmem
  · obtain ⟨_, hne⟩ := List.mem_filter.mp hmem
    simp only [bne_iff_ne, ne_eq, decide_eq_true_eq] at hne
    exact absurd hdid hne
  · have hdeq : d = mkDocRecord doc now recs.length := List.mem_singleton.mp hmem
    rw [hdeq]
    rfl

/-- Witness for C4 (amended) at a concrete one-chunk indexing run. -/
theorem ragIndex_final_state_witness :
    (ragIndexDocument embedOnes 0 "key" c4doc [c4chunk]).1 = .ok (c4doc.id, 1) ∧
    (ragIndexDocument embedOnes 0 "key" c4doc [c4chunk]).2 =
      [.putDoc (mkDocRecord c4doc 0 1), .putChs [mkChunkRecord c4doc.id 0 c4chunk [1]]] ∧
    ∀ d ∈ (applyOps emptyStore
        (ragIndexDocument embedOnes 0 "key" c4doc [c4chunk]).2).documents,
      d.id = c4doc.id →
      d.chunkCount =
        ((applyOps emptyStore
          (ragIndexDocument embedOnes 0 "key" c4doc [c4chunk]).2).chunks.filter
          (fun c => c.docId == c4doc.id)).length :=
  ragIndex_final_state embedOnes 0 "key" c4doc [c4chunk] emptyStore
    [mkChunkRecord c4doc.id 0 c4chunk [1]]
    (by decide) (by decide) (by decide)
    (embedBatches_singleton embedOnes c4doc.id 0 c4chunk [1] rfl)
    (by decide) (by simp [emptyStore])

/-! ## C6 — idempotent re-indexing -/

/-- **C6.** `onUploadPdf` derives the document id from the content hash and
the chunk ids from the chunker output, so identical content always produces
the identical request; running `RAG_INDEX_DOCUMENT` twice on that request
returns the same document id both times, and after the second run the store
holds exactly the second run's chunk set for that id — replaced, not
appended, with no accumulated duplicates. -/
theorem ragIndex_reindex_replaces
    (sha256Hex : List ℕ → String) (content : List ℕ) (name : String)
    (pages : List PageText) (byteSize : ℕ)
    (embed : List (List Char) → Except String (List (List ℝ)))
    (now1 now2 : ℕ) (apiKey : String) (s : Store)
    (doc : RagDocIn) (chins : List RagChunkIn) (recs1 recs2 : List RagChunk)
    (hreq : uploadRequest sha256Hex content name pages byteSize = (doc, chins))
    (h1 : apiKey ≠ "") (h2 : ¬(doc.id = "" ∨ doc.name = "")) (h3 : chins ≠ [])
    (hnd : (chins.map RagChunkIn.id).Nodup)
    (hold : ∀ c ∈ s.chunks, c.docId = doc.id → c.id ∈ chins.map RagChunkIn.id)
    (hok1 : embedBatches embed doc.id now1 chins = .ok recs1)
    (hok2 : embedBatches embed doc.id now2 chins = .ok recs2) :
    (ragIndexDocument embed now1 apiKey doc chins).1 = .ok (doc.id, recs1.length) ∧
    (ragIndexDocument embed now2 apiKey doc chins).1 = .ok (doc.id, recs2.length) ∧
    List.Perm
      (getChunksForDocs
        (applyOps (applyOps s (ragIndexDocument embed now1 apiKey doc chins).2)
          (ragIndexDocument embed now2 apiKey doc chins).2)
        [doc.id])
      recs2 := by
  have hrun1 : ragIndexDocument embed now1 apiKey doc chins =
      (.ok (doc.id, recs1.length),
        [.putDoc (mkDocRecord doc now1 recs1.length), .putChs recs1]) := by
    unfold ragIndexDocument
    rw [if_neg h1, if_neg h2, if_neg h3, hok1]
  have hrun2 : ragIndexDocument embed now2 apiKey doc chins =
      (.ok (doc.id, recs2.length),
        [.putDoc (mkDocRecord doc now2 recs2.length), .putChs recs2]) := by
    unfold ragIndexDocument
    rw [if_neg h1, if_neg h2, if_neg h3, hok2]
  obtain ⟨hids1, hdoc1⟩ :=
    embedBatches_ok embed doc.id now1 chins.length chins recs1 le_rfl hok1
  obtain ⟨hids2, hdoc2⟩ :=
    embedBatches_ok embed doc.id now2 chins.length chins recs2 le_rfl hok2
  have hnd1 : (recs1.map RagChunk.id).Nodup := by rw [hids1]; exact hnd
  have hnd2 : (recs2.map RagChunk.id).Nodup := by rw [hids2]; exact hnd
  refine ⟨by rw [hrun1], by rw [hrun2], ?_⟩
  rw [hrun1, hrun2]
  have hs1chunks : (applyOps s
      [StoreOp.putDoc (mkDocRecord doc now1 recs1.length), StoreOp.putChs recs1]).chunks =
      s.chunks.filter (fun y => (recs1.map RagChunk.id).all (fun k2 => y.id != k2)) ++ recs1 :=
    foldl_upsertBy_eq RagChunk.id recs1 s.chunks hnd1
  have hs2chunks : (applyOps
      (applyOps s [StoreOp.putDoc (mkDocRecord doc now1 recs1.length), StoreOp.putChs recs1])
      [StoreOp.putDoc (mkDocRecord doc now2 recs2.length), StoreOp.putChs recs2]).chunks =
      (applyOps s
        [StoreOp.putDoc (mkDocRecord doc now1 recs1.length), StoreOp.putChs recs1]).chunks.filter
        (fun y => (recs2.map RagChunk.id).all (fun k2 => y.id != k2)) ++ recs2 :=
    foldl_upsertBy_eq RagChunk.id recs2 _ hnd2
  have hfilter2 : List.filter (fun c => c.docId == doc.id) recs2 = recs2 := by
    rw [List.filter_eq_self]
    intro c hc
    simp [hdoc2 c hc]
  have hpart1 : List.filter (fun c => c.docId == doc.id)
      ((applyOps s
        [StoreOp.putDoc (mkDocRecord doc now1 recs1.length), StoreOp.putChs recs1]).chunks.filter
        (fun y => (recs2.map RagChunk.id).all (fun k2 => y.id != k2))) = [] := by
    rw [List.filter_eq_nil_iff]
    intro c hc
    obtain ⟨hcs, hall⟩ := List.mem_filter.mp hc
    simp only [beq_iff_eq]
    intro hcd
    rw [hs1chunks] at hcs
    have hcid : c.id ∈ recs2.map RagChunk.id := by
      rcases List.mem_append.mp hcs with hm | hm
      · rw [hids2]
        exact hold c (List.mem_filter.mp hm).1 hcd
      · rw [hids2, ← hids1]
        exact List.mem_map_of_mem RagChunk.id hm
    rw [List.all_eq_true] at hall
    have := hall c.id hcid
    simp at this
  have hflat : [doc.id].flatMap
      (chunksByDocId
        (applyOps
          (applyOps s [StoreOp.putDoc (mkDocRecord doc now1 recs1.length), StoreOp.putChs recs1])
          [StoreOp.putDoc (mkDocRecord doc now2 recs2.length), StoreOp.putChs recs2])) =
      chunksByDocId
        (applyOps
          (applyOps s [StoreOp.putDoc (mkDocRecord doc now1 recs1.length), StoreOp.putChs recs1])
          [StoreOp.putDoc (mkDocRecord doc now2 recs2.length), StoreOp.putChs recs2]) doc.id := by
    simp
  rw [getChunksForDocs, hflat]
  simp only [chunksByDocId]
  rw [hs2chunks, List.filter_append, hpart1, hfilter2, List.nil_append]
  exact List.perm_insertionSort chunkIdLe recs2

/-- Witness for C6: uploading the one-page content twice (timestamps 0 and 1)
yields the id `"d6"` both times, and the final store holds exactly the second
run's single chunk record. -/
theorem ragIndex_reindex_replaces_witness :
    (ragIndexDocument embedOnes 0 "key" c6doc [c6chunk]).1 = .ok ("d6", 1) ∧
    (ragIndexDocument embedOnes 1 "key" c6doc [c6chunk]).1 = .ok ("d6", 1) ∧
    List.Perm
      (getChunksForDocs
        (applyOps (applyOps emptyStore (ragIndexDocument embedOnes 0 "key" c6doc [c6chunk]).2)
          (ragIndexDocument embedOnes 1 "key" c6doc [c6chunk]).2)
        ["d6"])
      [c6rec2] :=
  ragIndex_reindex_replaces (fun _ => "d6") [0] "n.pdf" [⟨1, ['h', 'i']⟩] 1 embedOnes
    0 1 "key" emptyStore c6doc [c6chunk] [c6rec1] [c6rec2]
    (by decide) (by decide) (by decide) (by decide) (by decide)
    (by simp [emptyStore])
    (embedBatches_singleton embedOnes c6doc.id 0 c6chunk [1] rfl)
    (embedBatches_singleton embedOnes c6doc.id 1 c6chunk [1] rfl)

/-! ## Chunker lemmas -/

theorem forall_mem_dropWhile_iff {α : Type} (p : α → Bool) (l : List α) :
    (∀ c ∈ l.dropWhile p, p c = true) ↔ ∀ c ∈ l, p c = true := by
  constructor
  · intro h c hc
    rw [← List.takeWhile_append_dropWhile (p := p) (l := l)] at hc
    rcases List.mem_append.mp hc with hc | hc
    · exact List.mem_takeWhile_imp hc
    · exact h c hc
  · intro h c hc
    exact h c (List.dropWhile_sublist p |>.mem hc)

theorem trimChars_eq_nil_iff (l : List Char) :
    trimChars l = [] ↔ ∀ c ∈ l, isJsWs c = true := by
  unfold trimChars
  rw [List.dropWhile_eq_nil_iff]
  constructor
  · intro h c hc
    have h1 : ∀ c ∈ (l.reverse.dropWhile isJsWs).reverse, isJsWs c = true := h
    have h2 : ∀ c ∈ l.reverse.dropWhile isJsWs, isJsWs c = true := by
      intro c hc'
      exact h1 c (List.mem_reverse.mpr hc')
    have h3 : ∀ c ∈ l.reverse, isJsWs c = true :=
      (forall_mem_dropWhile_iff isJsWs l.reverse).mp h2
    exact h3 c (List.mem_reverse.mpr hc)
  · intro h c hc
    have hc' := List.mem_reverse.mp hc
    have := (List.dropWhile_sublist (p := isJsWs) (l := l.reverse)).mem hc'
    exact h c (List.mem_reverse.mp this)

theorem trimChars_ne_nil {c : Char} {l : List Char} (hmem : c ∈ l)
    (hc : isJsWs c = false) : trimChars l ≠ [] := by
  intro h0
  have := (trimChars_eq_nil_iff l).mp h0 c hmem
  rw [hc] at this
  exact Bool.false_ne_true this

theorem lbrack_mem_pageAddition (pg : PageText) : '[' ∈ pageAddition pg := by
  unfold pageAddition
  split
  · exact List.mem_append_left _ (List.mem_append_left _ (by decide))
  · exact List.mem_append_left _
      (List.mem_append_left _ (List.mem_append_left _ (by decide)))

/-- Main loop invariant for C8: while the (marked) additions still fit in
`maxChars`, the loop never flushes — the buffer is just the concatenation of
all additions so far. -/
theorem chunkPages_no_flush (maxChars overlapChars : ℕ) :
    ∀ (pages : List PageText) (st : CState),
      st.chunks = [] →
      st.cur.length + (pages.map (fun pg => (pageAddition pg).length)).sum ≤ maxChars →
      (pages.foldl (chunkStep maxChars overlapChars) st).chunks = [] ∧
      (pages.foldl (chunkStep maxChars overlapChars) st).cur =
        st.cur ++ (pages.map pageAddition).flatten := by
  intro pages
  induction pages with
  | nil =>
    intro st hchunks hfit
    simp [hchunks]
  | cons p rest ih =>
    intro st hchunks hfit
    simp only [List.map_cons, List.sum_cons] at hfit
    have hstep : chunkStep maxChars overlapChars st p =
        { st with cur := st.cur ++ pageAddition p, pageEnd := p.page } := by
      simp only [chunkStep]
      rw [if_neg]
      intro h
      omega
    rw [List.foldl_cons, hstep]
    have hres := ih { st with cur := st.cur ++ pageAddition p, pageEnd := p.page }
      hchunks (by simp; omega)
    refine ⟨hres.1, ?_⟩
    rw [hres.2]
    simp [List.append_assoc]

/-- **C8 (amended).** For every nonempty page sequence whose pages' *marked*
text — each page's text together with its `[Page N]` marker — totals at most
`maxChars`, the chunker produces exactly one chunk.  (The raw page text alone
fitting in `maxChars` is not enough, and an empty page sequence produces no
chunk; see the counterexample.) -/
theorem chunkPages_single_chunk (pages : List PageText) (maxChars overlapChars : ℕ)
    (hne : pages ≠ [])
    (hfit : (pages.map (fun pg => (pageAddition pg).length)).sum ≤ maxChars) :
    (chunkPages pages maxChars overlapChars).length = 1 := by
  unfold chunkPages
  obtain ⟨hchunks, hcur⟩ := chunkPages_no_flush maxChars overlapChars pages
    ⟨[], (pages.head?.map PageText.page).getD 1, (pages.head?.map PageText.page).getD 1, []⟩
    rfl (by simpa using hfit)
  unfold pushChunk
  rw [if_neg, hchunks]
  · simp
  · rw [hcur]
    cases pages with
    | nil => exact absurd rfl hne
    | cons p rest =>
      apply trimChars_ne_nil (c := '[')
      · simp only [List.nil_append, List.map_cons, List.flatten_cons]
        exact List.mem_append_left _ (lbrack_mem_pageAddition p)
      · decide

/-- Witness for C8 (amended) on a single small page. -/
theorem chunkPages_single_chunk_witness :
    (chunkPages [⟨1, ['h', 'i']⟩] 2500 250).length = 1 :=
  chunkPages_single_chunk [⟨1, ['h', 'i']⟩] 2500 250 (by decide) (by decide)

theorem replicate_ne_nil_of_pos {α : Type} (n : ℕ) (hn : n ≠ 0) (a : α) :
    List.replicate n a ≠ [] := by
  intro h
  have hlen := congrArg List.length h
  rw [List.length_replicate, List.length_nil] at hlen
  exact hn hlen

theorem pageAddition_nonempty (n : ℕ) (t : List Char) (ht : t ≠ []) :
    pageAddition ⟨n, t⟩ = ("\n\n[Page ".data ++ (Nat.repr n).data ++ "]\n".data) ++ t := by
  unfold pageAddition
  rw [if_neg ht]

theorem chunkPages_c8_trace :
    chunkPagesDefault c8pages =
      pushChunk ⟨("\n\n[Page 1]\n".data ++ List.replicate 1250 'A').drop 1011 ++
          ("\n\n[Page 2]\n".data ++ List.replicate 1240 'B'), 2, 2,
        [⟨1, 1, trimChars ("\n\n[Page 1]\n".data ++ List.replicate 1250 'A')⟩]⟩ := by
  have hAdef : pageAddition ⟨1, List.replicate 1250 'A'⟩ =
      "\n\n[Page 1]\n".data ++ List.replicate 1250 'A' := by
    rw [pageAddition_nonempty 1 (List.replicate 1250 'A') (replicate_ne_nil_of_pos 1250 (by norm_num) 'A')]
    rw [show ("\n\n[Page ".data ++ (Nat.repr 1).data ++ "]\n".data : List Char) =
      "\n\n[Page 1]\n".data from by decide]
  have hBdef : pageAddition ⟨2, List.replicate 1240 'B'⟩ =
      "\n\n[Page 2]\n".data ++ List.replicate 1240 'B' := by
    rw [pageAddition_nonempty 2 (List.replicate 1240 'B') (replicate_ne_nil_of_pos 1240 (by norm_num) 'B')]
    rw [show ("\n\n[Page ".data ++ (Nat.repr 2).data ++ "]\n".data : List Char) =
      "\n\n[Page 2]\n".data from by decide]
  have hlenA : ("\n\n[Page 1]\n".data ++ List.replicate 1250 'A').length = 1261 := by
    rw [List.length_append, List.length_replicate,
      show ("\n\n[Page 1]\n".data : List Char).length = 11 from by decide]
  have hlenB : ("\n\n[Page 2]\n".data ++ List.replicate 1240 'B').length = 1251 := by
    rw [List.length_append, List.length_replicate,
      show ("\n\n[Page 2]\n".data : List Char).length = 11 from by decide]
  have htrimA : trimChars ("\n\n[Page 1]\n".data ++ List.replicate 1250 'A') ≠ [] := by
    apply trimChars_ne_nil (c := 'A')
    · exact List.mem_append_right _ (List.mem_replicate.mpr ⟨by norm_num, rfl⟩)
    · decide
  have hstep1 : chunkStep 2500 250 ⟨[], 1, 1, []⟩ ⟨1, List.replicate 1250 'A'⟩ =
      ⟨"\n\n[Page 1]\n".data ++ List.replicate 1250 'A', 1, 1, []⟩ := by
    simp only [chunkStep]
    rw [if_neg (fun h => h.2 rfl)]
    simp only [hAdef]
    rfl
  have hstep2 : chunkStep 2500 250
      ⟨"\n\n[Page 1]\n".data ++ List.replicate 1250 'A', 1, 1, []⟩
      ⟨2, List.replicate 1240 'B'⟩ =
      ⟨("\n\n[Page 1]\n".data ++ List.replicate 1250 'A').drop 1011 ++
          ("\n\n[Page 2]\n".data ++ List.replicate 1240 'B'), 2, 2,
        [⟨1, 1, trimChars ("\n\n[Page 1]\n".data ++ List.replicate 1250 'A')⟩]⟩ := by
    simp only [chunkStep, hBdef]
    rw [if_pos ⟨by rw [hlenA, hlenB]; norm_num, htrimA⟩]
    have hpush : pushChunk ⟨"\n\n[Page 1]\n".data ++ List.replicate 1250 'A', 1, 1, []⟩ =
        [⟨1, 1, trimChars ("\n\n[Page 1]\n".data ++ List.replicate 1250 'A')⟩] := by
      unfold pushChunk
      rw [if_neg htrimA]
      rfl
    rw [hpush, hlenA]
  show pushChunk (List.foldl (chunkStep 2500 250) ⟨[], 1, 1, []⟩
      [⟨1, List.replicate 1250 'A'⟩, ⟨2, List.replicate 1240 'B'⟩]) = _
  rw [List.foldl_cons, List.foldl_cons, List.foldl_nil, hstep1, hstep2]

/-- **C8 (counterexample).** "Total input text fits within `maxChars` ⟹
exactly one chunk" fails on the code: the empty page sequence (total `0`)
produces no chunk at all, and two pages whose raw texts total `2490 ≤ 2500`
characters still produce two chunks, because the page markers that the
chunker adds push the buffer past `maxChars`. -/
theorem chunkPages_one_chunk_cex :
    chunkPagesDefault [] = [] ∧
    (c8pages.map (fun pg => pg.text.length)).sum = 2490 ∧ 2490 ≤ 2500 ∧
    (chunkPagesDefault c8pages).length = 2 := by
  refine ⟨rfl, ?_, by norm_num, ?_⟩
  · rw [show c8pages = [⟨1, List.replicate 1250 'A'⟩, ⟨2, List.replicate 1240 'B'⟩] from rfl]
    simp only [List.map_cons, List.map_nil, List.sum_cons, List.sum_nil]
    rw [List.length_replicate, List.length_replicate]
    norm_num
  · rw [chunkPages_c8_trace]
    unfold pushChunk
    rw [if_neg]
    · rfl
    · apply trimChars_ne_nil (c := 'B')
      · exact List.mem_append_right _
          (List.mem_append_right _ (List.mem_replicate.mpr ⟨by norm_num, rfl⟩))
      · decide

/-! ## C7 — the three-page overlap scenario -/

theorem dropWhile_replicate_append {α : Type} (p : α → Bool) (n : ℕ) (hn : n ≠ 0)
    (a : α) (hp : p a = false) (rest : List α) :
    List.dropWhile p (List.replicate n a ++ rest) = List.replicate n a ++ rest := by
  cases n with
  | zero => exact absurd rfl hn
  | succ m =>
    rw [List.replicate_succ, List.cons_append,
      List.dropWhile_cons_of_neg (by simp [hp])]

/-- Symbolic form of a flushing `chunkStep` iteration (buffer overflows and
its trimmed text is nonempty). -/
theorem chunkStep_flush (maxChars overlapChars : ℕ) (st : CState) (pg : PageText)
    (hcond : st.cur.length + (pageAddition pg).length > maxChars)
    (htrim : trimChars st.cur ≠ []) :
    chunkStep maxChars overlapChars st pg =
      ⟨st.cur.drop (st.cur.length - overlapChars) ++ pageAddition pg, pg.page, pg.page,
        st.chunks ++ [⟨st.pageStart, st.pageEnd, trimChars st.cur⟩]⟩ := by
  simp only [chunkStep, pushChunk]
  rw [if_pos ⟨hcond, htrim⟩, if_neg htrim]

theorem chunkPages_c7_trace :
    chunkPages c7pages 2500 250 =
      [⟨1, 2, "[Page 1]\nshort\n\n[Page 2]\nshort".data⟩,
        ⟨3, 3, "[Page 1]\nshort\n\n[Page 2]\nshort".data ++
          ("\n\n[Page 3]\n".data ++ List.replicate 3000 'X')⟩] := by
  have hstep1 : chunkStep 2500 250 ⟨[], 1, 1, []⟩ ⟨1, "short".data⟩ =
      ⟨"\n\n[Page 1]\nshort".data, 1, 1, []⟩ := by decide
  have hstep2 : chunkStep 2500 250 ⟨"\n\n[Page 1]\nshort".data, 1, 1, []⟩ ⟨2, "short".data⟩ =
      ⟨"\n\n[Page 1]\nshort\n\n[Page 2]\nshort".data, 1, 2, []⟩ := by decide
  have hadd3 : pageAddition ⟨3, List.replicate 3000 'X'⟩ =
      "\n\n[Page 3]\n".data ++ List.replicate 3000 'X' := by
    rw [pageAddition_nonempty 3 (List.replicate 3000 'X')
      (replicate_ne_nil_of_pos 3000 (by norm_num) 'X')]
    rw [show ("\n\n[Page ".data ++ (Nat.repr 3).data ++ "]\n".data : List Char) =
      "\n\n[Page 3]\n".data from by decide]
  have hlen3 : ("\n\n[Page 3]\n".data ++ List.replicate 3000 'X').length = 3011 := by
    rw [List.length_append, List.length_replicate,
      show ("\n\n[Page 3]\n".data : List Char).length = 11 from by decide]
  have hplen3 : (pageAddition ⟨3, List.replicate 3000 'X'⟩).length = 3011 := by
    rw [hadd3, hlen3]
  have hstep3 : chunkStep 2500 250
      ⟨"\n\n[Page 1]\nshort\n\n[Page 2]\nshort".data, 1, 2, []⟩ ⟨3, List.replicate 3000 'X'⟩ =
      ⟨"\n\n[Page 1]\nshort\n\n[Page 2]\nshort".data ++
          ("\n\n[Page 3]\n".data ++ List.replicate 3000 'X'), 3, 3,
        [⟨1, 2, "[Page 1]\nshort\n\n[Page 2]\nshort".data⟩]⟩ := by
    rw [chunkStep_flush 2500 250
      ⟨"\n\n[Page 1]\nshort\n\n[Page 2]\nshort".data, 1, 2, []⟩ ⟨3, List.replicate 3000 'X'⟩
      (by rw [hplen3, show ((⟨"\n\n[Page 1]\nshort\n\n[Page 2]\nshort".data, 1, 2, []⟩ :
          CState).cur : List Char).length = 32 from by decide]; norm_num)
      (by decide)]
    rw [hadd3]
    rw [show ((⟨"\n\n[Page 1]\nshort\n\n[Page 2]\nshort".data, 1, 2, []⟩ :
      CState).cur : List Char).length - 250 = 0 from by decide, List.drop_zero]
    rw [show trimChars ((⟨"\n\n[Page 1]\nshort\n\n[Page 2]\nshort".data, 1, 2, []⟩ :
      CState).cur : List Char) = "[Page 1]\nshort\n\n[Page 2]\nshort".data from by decide]
    rfl
  have htrim : trimChars ("\n\n[Page 1]\nshort\n\n[Page 2]\nshort".data ++
      ("\n\n[Page 3]\n".data ++ List.replicate 3000 'X')) =
      "[Page 1]\nshort\n\n[Page 2]\nshort".data ++
        ("\n\n[Page 3]\n".data ++ List.replicate 3000 'X') := by
    unfold trimChars
    have hrev : ("\n\n[Page 1]\nshort\n\n[Page 2]\nshort".data ++
        ("\n\n[Page 3]\n".data ++ List.replicate 3000 'X')).reverse =
        List.replicate 3000 'X' ++
          (("\n\n[Page 3]\n".data : List Char).reverse ++
            ("\n\n[Page 1]\nshort\n\n[Page 2]\nshort".data : List Char).reverse) := by
      rw [List.reverse_append, List.reverse_append, List.reverse_replicate,
        List.append_assoc]
    rw [hrev, dropWhile_replicate_append isJsWs 3000 (by norm_num) 'X' (by decide) _,
      ← hrev, List.reverse_reverse, List.dropWhile_append]
    rw [show List.dropWhile isJsWs "\n\n[Page 1]\nshort\n\n[Page 2]\nshort".data =
      "[Page 1]\nshort\n\n[Page 2]\nshort".data from by decide]
    rw [if_neg (by decide)]
  show pushChunk (List.foldl (chunkStep 2500 250) ⟨[], 1, 1, []⟩
    [⟨1, "short".data⟩, ⟨2, "short".data⟩, ⟨3, List.replicate 3000 'X'⟩]) = _
  rw [List.foldl_cons, List.foldl_cons, List.foldl_cons, List.foldl_nil,
    hstep1, hstep2, hstep3]
  unfold pushChunk
  rw [htrim]
  rw [if_neg (fun h => absurd (List.append_eq_nil.mp h).1 (by decide))]
  rfl

/-- **C7.** Chunking `["short", "short", "X"*3000]` with
`maxChars = 2500, overlapChars = 250` yields at least two chunks whose page
ranges jointly cover pages 1–3, and the second chunk's text begins with the
last 250 characters of the first chunk's text (here the whole 30-character
first chunk, carried over as the sliding-window overlap). -/
theorem chunkPages_scenario :
    2 ≤ (chunkPages c7pages 2500 250).length ∧
    (∀ p ∈ [1, 2, 3], ∃ c ∈ chunkPages c7pages 2500 250,
      c.pageStart ≤ p ∧ p ≤ c.pageEnd) ∧
    lastChars 250 ((chunkPages c7pages 2500 250).getD 0 default).text <+:
      ((chunkPages c7pages 2500 250).getD 1 default).text := by
  rw [chunkPages_c7_trace]
  refine ⟨by norm_num, ?_, ?_⟩
  · intro p hp
    simp only [List.mem_cons, List.not_mem_nil, or_false] at hp
    rcases hp with rfl | rfl | rfl
    · exact ⟨⟨1, 2, "[Page 1]\nshort\n\n[Page 2]\nshort".data⟩,
        List.mem_cons_self _ _, by norm_num⟩
    · exact ⟨⟨1, 2, "[Page 1]\nshort\n\n[Page 2]\nshort".data⟩,
        List.mem_cons_self _ _, by norm_num⟩
    · exact ⟨⟨3, 3, "[Page 1]\nshort\n\n[Page 2]\nshort".data ++
          ("\n\n[Page 3]\n".data ++ List.replicate 3000 'X')⟩,
        List.mem_cons_of_mem _ (List.mem_cons_self _ _), by norm_num⟩
  · rw [show lastChars 250
      ((([⟨1, 2, "[Page 1]\nshort\n\n[Page 2]\nshort".data⟩,
        ⟨3, 3, "[Page 1]\nshort\n\n[Page 2]\nshort".data ++
          ("\n\n[Page 3]\n".data ++ List.replicate 3000 'X')⟩] :
        List ChunkOut).getD 0 default).text) =
      "[Page 1]\nshort\n\n[Page 2]\nshort".data from by decide]
    exact List.prefix_append _ _

/-! ## C1 — top-K maintenance -/

theorem insLast_cons_pos (h b : RagSearchHit) (bs : List RagSearchHit)
    (hb : b.score < h.score) : insLast h (b :: bs) = h :: b :: bs := by
  rw [insLast, if_pos hb]

theorem insLast_cons_neg (h b : RagSearchHit) (bs : List RagSearchHit)
    (hb : ¬b.score < h.score) : insLast h (b :: bs) = b :: insLast h bs := by
  rw [insLast, if_neg hb]

theorem insLast_length (h : RagSearchHit) :
    ∀ s : List RagSearchHit, (insLast h s).length = s.length + 1 := by
  intro s
  induction s with
  | nil => rfl
  | cons b bs ih =>
    by_cases hb : b.score < h.score
    · rw [insLast_cons_pos h b bs hb]
      rfl
    · rw [insLast_cons_neg h b bs hb]
      simp [ih]

theorem orderedInsert_cons_pos (a b : RagSearchHit) (l : List RagSearchHit)
    (h : hitGe a b) : List.orderedInsert hitGe a (b :: l) = a :: b :: l := by
  rw [show List.orderedInsert hitGe a (b :: l) =
    (if hitGe a b then a :: b :: l else b :: List.orderedInsert hitGe a l) from rfl,
    if_pos h]

theorem orderedInsert_cons_neg (a b : RagSearchHit) (l : List RagSearchHit)
    (h : ¬hitGe a b) : List.orderedInsert hitGe a (b :: l) =
      b :: List.orderedInsert hitGe a l := by
  rw [show List.orderedInsert hitGe a (b :: l) =
    (if hitGe a b then a :: b :: l else b :: List.orderedInsert hitGe a l) from rfl,
    if_neg h]

theorem orderedInsert_insLast_comm :
    ∀ (s : List RagSearchHit) (a h : RagSearchHit),
      List.orderedInsert hitGe a (insLast h s) =
        insLast h (List.orderedInsert hitGe a s) := by
  intro s
  induction s with
  | nil =>
    intro a h
    by_cases hr : hitGe a h
    · rw [show insLast h [] = [h] from rfl, orderedInsert_cons_pos a h [] hr,
        List.orderedInsert_nil, insLast_cons_neg h a [] (not_lt.mpr hr)]
      rfl
    · have har : a.score < h.score := not_le.mp hr
      rw [show insLast h [] = [h] from rfl, orderedInsert_cons_neg a h [] hr,
        List.orderedInsert_nil, insLast_cons_pos h a [] har]
  | cons b t ih =>
    intro a h
    by_cases hp : b.score < h.score
    · rw [insLast_cons_pos h b t hp]
      by_cases hr : hitGe a h
      · have hab : hitGe a b := le_trans (le_of_lt hp) hr
        rw [orderedInsert_cons_pos a h (b :: t) hr, orderedInsert_cons_pos a b t hab,
          insLast_cons_neg h a (b :: t) (not_lt.mpr hr), insLast_cons_pos h b t hp]
      · have har : a.score < h.score := not_le.mp hr
        rw [orderedInsert_cons_neg a h (b :: t) hr]
        by_cases hq : hitGe a b
        · rw [orderedInsert_cons_pos a b t hq, insLast_cons_pos h a (b :: t) har]
        · rw [orderedInsert_cons_neg a b t hq,
            insLast_cons_pos h b (List.orderedInsert hitGe a t) hp]
    · rw [insLast_cons_neg h b t hp]
      by_cases hq : hitGe a b
      · have hna : ¬a.score < h.score := not_lt.mpr (le_trans (not_lt.mp hp) hq)
        rw [orderedInsert_cons_pos a b t hq, orderedInsert_cons_pos a b (insLast h t) hq,
          insLast_cons_neg h a (b :: t) hna, insLast_cons_neg h b t hp]
      · rw [orderedInsert_cons_neg a b t hq, orderedInsert_cons_neg a b (insLast h t) hq,
          ih a h, insLast_cons_neg h b (List.orderedInsert hitGe a t) hp]

theorem sortHits_append_singleton (l : List RagSearchHit) (h : RagSearchHit) :
    sortHits (l ++ [h]) = insLast h (sortHits l) := by
  induction l with
  | nil => rfl
  | cons a t ih =>
    show List.insertionSort hitGe (a :: (t ++ [h])) = _
    rw [List.insertionSort]
    rw [show List.insertionSort hitGe (t ++ [h]) = sortHits (t ++ [h]) from rfl, ih,
      orderedInsert_insLast_comm]
    rfl

theorem take_insLast_of_lt :
    ∀ (s : List RagSearchHit) (k : ℕ) (h lst : RagSearchHit),
      (s.take (k + 1)).getLast? = some lst → lst.score < h.score →
      (insLast h s).take (k + 1) = insLast h (s.take k) := by
  intro s
  induction s with
  | nil =>
    intro k h lst hl _
    simp at hl
  | cons b t ih =>
    intro k h lst hl hlt
    cases k with
    | zero =>
      rw [List.take_succ_cons, List.take_zero, List.getLast?_singleton,
        Option.some.injEq] at hl
      subst hl
      rw [insLast_cons_pos h b t hlt, List.take_succ_cons, List.take_zero]
      rfl
    | succ k' =>
      cases t with
      | nil =>
        rw [List.take_of_length_le (by simp)] at hl
        rw [List.getLast?_singleton, Option.some.injEq] at hl
        subst hl
        rw [List.take_of_length_le (show ([b] : List RagSearchHit).length ≤ k' + 1 by simp),
          insLast_cons_pos h b [] hlt,
          List.take_of_length_le (by simp)]
      | cons c u =>
        rw [List.take_succ_cons, List.take_succ_cons, List.getLast?_cons_cons,
          ← List.take_succ_cons] at hl
        by_cases hb : b.score < h.score
        · rw [insLast_cons_pos h b (c :: u) hb]
          simp only [List.take_succ_cons]
          rw [insLast_cons_pos h b (List.take k' (c :: u)) hb]
        · rw [insLast_cons_neg h b (c :: u) hb]
          simp only [List.take_succ_cons]
          rw [ih k' h lst hl hlt, insLast_cons_neg h b (List.take k' (c :: u)) hb]

theorem take_insLast_of_not_lt :
    ∀ (s : List RagSearchHit) (k : ℕ) (h lst : RagSearchHit),
      List.Sorted hitGe s → k ≤ s.length →
      (s.take k).getLast? = some lst → ¬lst.score < h.score →
      (insLast h s).take k = s.take k := by
  intro s
  induction s with
  | nil =>
    intro k h lst _ hk hl _
    simp at hl
  | cons b t ih =>
    intro k h lst hsort hk hl hnlt
    rw [List.sorted_cons] at hsort
    obtain ⟨hball, hsort'⟩ := hsort
    cases k with
    | zero => simp at hl
    | succ k' =>
      cases k' with
      | zero =>
        rw [List.take_succ_cons, List.take_zero, List.getLast?_singleton,
          Option.some.injEq] at hl
        subst hl
        rw [insLast_cons_neg h b t hnlt, List.take_succ_cons, List.take_zero,
          List.take_succ_cons, List.take_zero]
      | succ k'' =>
        cases t with
        | nil =>
          rw [List.length_singleton] at hk
          omega
        | cons c u =>
          rw [List.take_succ_cons, List.take_succ_cons, List.getLast?_cons_cons,
            ← List.take_succ_cons] at hl
          have hmem : lst ∈ c :: u :=
            List.take_subset _ _ (List.mem_of_getLast?_eq_some hl)
          have hb : ¬b.score < h.score := by
            have h1 : hitGe b lst := hball lst hmem
            have h2 : h.score ≤ lst.score := not_lt.mp hnlt
            exact not_lt.mpr (le_trans h2 h1)
          rw [insLast_cons_neg h b (c :: u) hb]
          simp only [List.take_succ_cons]
          have hlen : k'' + 1 ≤ (c :: u).length := by
            rw [List.length_cons] at hk ⊢
            rw [List.length_cons] at hk
            omega
          rw [ih (k'' + 1) h lst hsort' hlen hl hnlt, List.take_succ_cons]

theorem sortHits_sorted (l : List RagSearchHit) : List.Sorted hitGe (sortHits l) :=
  List.sorted_insertionSort hitGe l

/-- The handler's one-at-a-time best-list maintenance is the stable insertion
of the candidate followed by truncation to the capacity `k`. -/
theorem bestFold_eq_take_sort (k : ℕ) (hk : 1 ≤ k) :
    ∀ l : List RagSearchHit, l.foldl (bestInsert k) [] = (sortHits l).take k := by
  intro l
  induction l using List.reverseRecOn with
  | nil => simp [sortHits]
  | append_singleton l h ih =>
    rw [List.foldl_append, List.foldl_cons, List.foldl_nil, ih,
      sortHits_append_singleton]
    have hsorted : List.Sorted hitGe (sortHits l) := sortHits_sorted l
    by_cases hlen : (sortHits l).length < k
    · have htake : (sortHits l).take k = sortHits l :=
        List.take_of_length_le (le_of_lt hlen)
      rw [htake]
      have hbranch : bestInsert k (sortHits l) h = sortHits (sortHits l ++ [h]) := by
        simp only [bestInsert]
        rw [if_pos hlen]
      rw [hbranch, sortHits_append_singleton,
        show sortHits (sortHits l) = List.insertionSort hitGe (sortHits l) from rfl,
        List.Sorted.insertionSort_eq hsorted,
        List.take_of_length_le (by rw [insLast_length]; omega)]
    · have hkle : k ≤ (sortHits l).length := by omega
      have hlen2 : ((sortHits l).take k).length = k := by
        rw [List.length_take]
        exact min_eq_left hkle
      have hne : (sortHits l).take k ≠ [] := by
        intro h0
        rw [h0] at hlen2
        simp at hlen2
        omega
      obtain ⟨lst, hlast⟩ : ∃ lst, ((sortHits l).take k).getLast? = some lst := by
        cases hcase : ((sortHits l).take k).getLast? with
        | none => exact absurd (List.getLast?_eq_none_iff.mp hcase) hne
        | some lst => exact ⟨lst, rfl⟩
      have hbi : bestInsert k ((sortHits l).take k) h =
          if lst.score < h.score then
            sortHits (((sortHits l).take k).dropLast ++ [h])
          else (sortHits l).take k := by
        simp only [bestInsert]
        rw [if_neg (by rw [hlen2]; omega), hlast]
      by_cases hlt : lst.score < h.score
      · rw [hbi, if_pos hlt]
        have hsub : List.Sorted hitGe (((sortHits l).take k).dropLast) :=
          List.Pairwise.sublist
            ((List.dropLast_sublist _).trans (List.take_sublist _ _)) hsorted
        have hdl : ((sortHits l).take k).dropLast = (sortHits l).take (k - 1) := by
          rw [List.dropLast_eq_take, hlen2, List.take_take]
          rw [min_eq_left (by omega)]
        rw [sortHits_append_singleton,
          show sortHits (((sortHits l).take k).dropLast) =
            List.insertionSort hitGe (((sortHits l).take k).dropLast) from rfl,
          List.Sorted.insertionSort_eq hsub, hdl]
        obtain ⟨k', rfl⟩ : ∃ k', k = k' + 1 := ⟨k - 1, by omega⟩
        rw [take_insLast_of_lt (sortHits l) k' h lst hlast hlt]
        simp only [Nat.add_sub_cancel]
      · rw [hbi, if_neg hlt]
        exact (take_insLast_of_not_lt (sortHits l) k h lst hsorted hkle hlast hlt).symm

/-- **C1 (counterexample).** With `docIds = ["b", "a"]` and two equal-scoring
chunks `b:0` and `a:0`, the handler keeps the first-encountered chunk `b:0`
and never replaces it with the equal-scoring, lexicographically smaller
`a:0`: the replacement test is strictly-greater only and the sort is by score
alone, so ties are broken by encounter order, not by ascending chunk id as
the claim states. -/
theorem ragSearch_tiebreak_cex :
    ragSearch c1embed "key" ['q'] 1 (some ["b", "a"]) c1Store =
      .ok [toHit (docNameById (listDocuments c1Store)) (toNormalizedF32 [1]) c1chunkB] ∧
    (toHit (docNameById (listDocuments c1Store)) (toNormalizedF32 [1]) c1chunkB).chunkId =
      "b:0" ∧
    (∀ c ∈ c1Store.chunks, cosineDot (toNormalizedF32 [1]) c.embeddingF32 =
      cosineDot (toNormalizedF32 [1]) [1]) ∧
    ("a:0" : String) < "b:0" := by
  have hchunks : getChunksForDocs c1Store ["b", "a"] = [c1chunkB, c1chunkA] := by
    simp [getChunksForDocs, chunksByDocId, c1Store, c1chunkA, c1chunkB]
  refine ⟨?_, rfl, ?_, ?_⟩
  · have hres : resolveDocIds (some ["b", "a"]) (listDocuments c1Store) = ["b", "a"] := by
      simp [resolveDocIds]
    simp only [ragSearch]
    rw [if_neg (by decide), if_neg (by decide), hres, if_neg (by decide),
      show c1embed [['q']] = Except.ok [[(1 : ℝ)]] from rfl]
    show Except.ok
        (List.foldl
          (fun best c =>
            bestInsert (clampTopK 1).toNat best
              (toHit (docNameById (listDocuments c1Store)) (toNormalizedF32 [1]) c))
          [] (getChunksForDocs c1Store ["b", "a"])) =
      Except.ok [toHit (docNameById (listDocuments c1Store)) (toNormalizedF32 [1]) c1chunkB]
    rw [hchunks, show (clampTopK 1).toNat = 1 from by decide,
      show listDocuments c1Store = [] from rfl]
    rw [List.foldl_cons, List.foldl_cons, List.foldl_nil]
    have hstep1 : bestInsert 1 [] (toHit (docNameById []) (toNormalizedF32 [1]) c1chunkB) =
        [toHit (docNameById []) (toNormalizedF32 [1]) c1chunkB] := by
      simp only [bestInsert]
      rw [if_pos (by simp), List.nil_append]
      rfl
    rw [hstep1]
    have hsc : (toHit (docNameById []) (toNormalizedF32 [1]) c1chunkA).score =
        (toHit (docNameById []) (toNormalizedF32 [1]) c1chunkB).score := rfl
    have hstep2 : bestInsert 1 [toHit (docNameById []) (toNormalizedF32 [1]) c1chunkB]
        (toHit (docNameById []) (toNormalizedF32 [1]) c1chunkA) =
        [toHit (docNameById []) (toNormalizedF32 [1]) c1chunkB] := by
      simp only [bestInsert]
      rw [if_neg (by simp), List.getLast?_singleton]
      show (if (toHit (docNameById []) (toNormalizedF32 [1]) c1chunkB).score <
          (toHit (docNameById []) (toNormalizedF32 [1]) c1chunkA).score then
        sortHits ([toHit (docNameById []) (toNormalizedF32 [1]) c1chunkB].dropLast ++
          [toHit (docNameById []) (toNormalizedF32 [1]) c1chunkA])
        else [toHit (docNameById []) (toNormalizedF32 [1]) c1chunkB]) =
        [toHit (docNameById []) (toNormalizedF32 [1]) c1chunkB]
      rw [if_neg (by rw [hsc]; exact lt_irrefl _)]
    rw [hstep2]
  · intro c hc
    rcases List.mem_cons.mp hc with rfl | hc
    · rfl
    · rcases List.mem_cons.mp hc with rfl | hc
      · rfl
      · cases hc
  · rw [String.lt_iff_toList_lt]
    decide

/-- **C1 (amended).** A successful search returns the first `k` elements
(`k` = the clamped/defaulted requested count) of the *stable*
descending-by-score sort of all scored candidate chunks, taken in store
iteration order (the given `docIds` order, then ascending chunk id within a
document).  A candidate replaces the current minimum only when its score is
strictly greater, and the per-iteration re-sort is stable, so equal scores
are kept in encounter order; ties are *not* broken by ascending chunk id. -/
theorem ragSearch_topk_amended
    (embed : List (List Char) → Except String (List (List ℝ)))
    (apiKey : String) (query : List Char) (topK : ℤ) (docIds : Option (List String))
    (s : Store) (qe : List ℝ) (rest : List (List ℝ))
    (h1 : apiKey ≠ "") (h2 : trimChars query ≠ [])
    (h3 : resolveDocIds docIds (listDocuments s) ≠ [])
    (h4 : embed [query] = .ok (qe :: rest)) :
    ragSearch embed apiKey query topK docIds s =
      .ok ((sortHits ((getChunksForDocs s (resolveDocIds docIds (listDocuments s))).map
        (toHit (docNameById (listDocuments s)) (toNormalizedF32 qe)))).take
        (clampTopK topK).toNat) := by
  have hk : 1 ≤ (clampTopK topK).toNat := by
    unfold clampTopK
    omega
  simp only [ragSearch]
  rw [if_neg h1, if_neg h2, if_neg h3, h4]
  show Except.ok
      (List.foldl
        (fun best c =>
          bestInsert (clampTopK topK).toNat best
            (toHit (docNameById (listDocuments s)) (toNormalizedF32 qe) c))
        [] (getChunksForDocs s (resolveDocIds docIds (listDocuments s)))) = _
  rw [← List.foldl_map (toHit (docNameById (listDocuments s)) (toNormalizedF32 qe))
    (bestInsert (clampTopK topK).toNat)
    (getChunksForDocs s (resolveDocIds docIds (listDocuments s))) []]
  rw [bestFold_eq_take_sort (clampTopK topK).toNat hk]

/-- Witness for C1 (amended) at a concrete search over `c1Store`. -/
theorem ragSearch_topk_amended_witness :
    ragSearch c1embed "key" ['q'] 5 (some ["a"]) c1Store =
      .ok ((sortHits ((getChunksForDocs c1Store
        (resolveDocIds (some ["a"]) (listDocuments c1Store))).map
        (toHit (docNameById (listDocuments c1Store)) (toNormalizedF32 [1])))).take
        (clampTopK 5).toNat) :=
  ragSearch_topk_amended c1embed "key" ['q'] 5 (some ["a"]) c1Store [1] []
    (by decide) (by decide) (by simp [resolveDocIds]) rfl
